import Mathlib

/-!
# Verification of `multi-md5.py`

A shallow embedding of the checksum tool `multi-md5.py` (MD5 manifest
generation and verification over a directory tree with a worker pool),
together with proofs and refutations of the specification's claims.

Modelling conventions:
* Strings are Lean `String`s; the Python `str` operations used by the source
  (`split`, `startswith`, `endswith`, `os.sep` splitting) are re-implemented
  over `String.toList` so that every definition evaluates by kernel reduction.
* The filesystem is a function `fs : String → FileOutcome` giving, for each
  path, either the MD5 hex digest of the file's full content, or the failure
  mode of `open`.  The chunked read loop of `calculate_file_checksum` consumes
  the whole file, so the digest depends only on the path's content; `read_size`
  is kept as an (inert) parameter.
* Thread-pool nondeterminism (`as_completed` yields results in completion
  order) is modelled by an order oracle `orders : Nat → List α → List α`
  applied to each submitted batch; theorems that depend on it hypothesise that
  each `orders i` produces a permutation of its input.
* Uncaught Python exceptions are modelled as `Except.error` values;
  `sys.exit` / `KeyboardInterrupt` handling is outside the modelled region.
-/

namespace MultiMd5

/-! ## String helpers (models of the Python `str` operations used) -/

/-- Model of Python `s.split(sep)` for a one-character separator: split the
character list at every occurrence of `sep`, keeping empty pieces
(`"/a/b".split("/") == ["", "a", "b"]`). -/
def splitSep (sep : Char) : List Char → List (List Char)
  | [] => [[]]
  | c :: cs =>
    if c = sep then [] :: splitSep sep cs
    else
      match splitSep sep cs with
      | [] => [[c]]
      | r :: rs => (c :: r) :: rs

/-- Model of Python `component.startswith('.')` on a path component. -/
def startsWithDot : List Char → Bool
  | [] => false
  | c :: _ => c = '.'

/-- Model of Python `s.startswith(pre)`. -/
def pyStartsWith (s pre : String) : Bool := pre.toList.isPrefixOf s.toList

/-- Model of Python `s.endswith(suf)`. -/
def pyEndsWith (s suf : String) : Bool := suf.toList.isSuffixOf s.toList

/-- Helper for `pySplit`: accumulate the current run of non-whitespace
characters, emitting a word at each whitespace boundary. -/
def wordsAux (acc : List Char) : List Char → List (List Char)
  | [] => if acc = [] then [] else [acc]
  | c :: cs =>
    if c.isWhitespace then
      if acc = [] then wordsAux [] cs else acc :: wordsAux [] cs
    else wordsAux (acc ++ [c]) cs

/-- Model of Python `s.split()` (no argument): split on runs of whitespace,
discarding empty tokens. -/
def pySplit (s : String) : List String :=
  (wordsAux [] s.toList).map (fun cs => String.mk cs)

/-- Predicate: `s` contains no whitespace character. -/
def noWS (s : String) : Bool := s.toList.all (fun c => !c.isWhitespace)

/-- Model of `os.path.join(a, b)` for a relative second component
(`os.sep = "/"`). -/
def pathJoin (a b : String) : String := a ++ "/" ++ b

/-- Model of the Python f-string rendering of an `Optional[str]` value:
`None` prints as the four characters `None`. -/
def pyStrOfOpt : Option String → String
  | some s => s
  | none => "None"

/-- Model of
`os.path.relpath(p, os.path.commonpath([p, root]))` for a path `p` strictly
below the normalized absolute directory `root` (the only way the generation
orchestrator calls it): drop `root` and the following separator. -/
def pyRelUnder (root p : String) : String :=
  String.mk (p.toList.drop (root.toList.length + 1))

/-- Model of `os.path.abspath(os.path.join(directory_path, file))` for a
normalized absolute `directory_path`, as the verify orchestrator calls it:
an absolute `file` is returned unchanged, a leading `./` is normalized away,
any other `file` is appended after a separator. -/
def pyAbsJoin (root file : String) : String :=
  if pyStartsWith file "/" then file
  else if pyStartsWith file "./" then root ++ "/" ++ String.mk (file.toList.drop 2)
  else root ++ "/" ++ file

/-! ## Hasher (`calculate_file_checksum`, source lines 17-28) -/

/-- What the filesystem does when the hasher opens and reads one path:
the file is readable (with the given full-content MD5 hex digest), raises
`FileNotFoundError`, or raises some other `OSError` (e.g. `PermissionError`
for an existing file that cannot be opened). -/
inductive FileOutcome : Type where
  | found (digest : String)
  | notFound
  | openError
deriving DecidableEq

/-- Model of `calculate_file_checksum(file_path, read_size, pass_through)`:
streams the file into an MD5 accumulator and returns
`(file_path, hexdigest, pass_through)`; only `FileNotFoundError` is caught
(returning an absent digest), every other exception propagates
(`Except.error`). -/
def calculate_file_checksum (fs : String → FileOutcome) (file_path : String)
    (read_size : Nat) (pass_through : Option String) :
    Except Unit (String × Option String × Option String) :=
  match fs file_path with
  | .found digest => .ok (file_path, some digest, pass_through)
  | .notFound => .ok (file_path, none, pass_through)
  | .openError => .error ()

/-! ## Manifest parsing (`read_checksum_file`, source lines 31-41) -/

/-- The uncaught `IndexError` raised by `line.split()[0]` / `line.split()[1]`
when a retained manifest line has fewer than two tokens (the spec's
`MalformedLine`). -/
inductive ManifestError : Type where
  | malformedLine
deriving DecidableEq

/-- Model of Python `list.remove(x)`: removes the first occurrence of `x`. -/
def pyRemoveFirst (x : String) : List String → List String
  | [] => []
  | y :: ys => if y = x then ys else y :: pyRemoveFirst x ys

/-- The comment-stripping loop
`for line in lines: if line.startswith("#"): lines.remove(line)`.
Python's `for` keeps an internal index `i` that advances every iteration even
when the list is mutated under it; the loop ends when the index reaches the
(current) length.  `fuel` is an upper bound on the number of iterations; it is
consumed once per iteration, and `removeComments` supplies `lines.length`,
which suffices because the index grows by one per iteration and the list never
grows. -/
def removeCommentsAux : Nat → Nat → List String → List String
  | 0, _, l => l
  | fuel + 1, i, l =>
    if h : i < l.length then
      let line := l.get ⟨i, h⟩
      if pyStartsWith line "#" then removeCommentsAux fuel (i + 1) (pyRemoveFirst line l)
      else removeCommentsAux fuel (i + 1) l
    else l

/-- The comment-stripping pass of `read_checksum_file`. -/
def removeComments (lines : List String) : List String :=
  removeCommentsAux lines.length 0 lines

/-- No two consecutive lines both start with `#` (the condition under which
the mutate-while-iterating comment loop behaves like a plain filter). -/
def noAdjComments : List String → Bool
  | [] => true
  | [_] => true
  | a :: b :: rest =>
    !(pyStartsWith a "#" && pyStartsWith b "#") && noAdjComments (b :: rest)

/-- The list comprehension
`[(line.split()[0], line.split()[1]) for line in lines]` for one line:
takes the first two whitespace-separated tokens, raising `IndexError`
(modelled `malformedLine`) when there are fewer than two. -/
def parseLine (line : String) : Except ManifestError (String × String) :=
  match pySplit line with
  | t0 :: t1 :: _ => .ok (t0, t1)
  | _ => .error .malformedLine

/-- The comprehension over all retained lines; the first failing line aborts. -/
def parseLines : List String → Except ManifestError (List (String × String))
  | [] => .ok []
  | line :: rest =>
    match parseLine line with
    | .error e => .error e
    | .ok pr =>
      match parseLines rest with
      | .error e => .error e
      | .ok prs => .ok (pr :: prs)

/-- Model of `read_checksum_file`: the file's lines (without trailing newlines, which
affect none of the modelled operations) are comment-stripped and parsed into
`(digest, path)` pairs. -/
def read_checksum_file (lines : List String) :
    Except ManifestError (List (String × String)) :=
  parseLines (removeComments lines)

/-! ## `batch` (source lines 44-48) -/

/-- Helper for `batch`, structurally recursive on a fuel bound (the slice
index advances by `n ≥ 1` per step, so `l.length` steps suffice). -/
def batchAux (n : Nat) : Nat → List α → List (List α)
  | _, [] => []
  | 0, _ :: _ => []
  | fuel + 1, x :: xs => ((x :: xs).take n) :: batchAux n fuel ((x :: xs).drop n)

/-- Model of `batch(iterable, n)`: successive `n`-sized slices
`iterable[ndx:min(ndx+n, l)]`.  For `n = 0` Python's `range(0, l, 0)` raises
`ValueError`; that case is unreachable (the callers pass
`max_workers * k` with `max_workers ≥ 1`) and is mapped to `[]`. -/
def batch (l : List α) (n : Nat) : List (List α) :=
  if n = 0 then [] else batchAux n l.length l

/-! ## Tree enumerator (`batch_os_walk`, source lines 51-75) -/

/-- Model of `is_hidden(path)`: some `os.sep`-separated component of the full joined
path starts with `'.'`. -/
def is_hidden (path : String) : Bool :=
  (splitSep '/' path.toList).any startsWithDot

/-! A directory tree as consumed through `os.walk`: a directory holds a forest
of named subdirectories and a list of file names.  (File contents live in the
separate `fs` map; `followlinks=True` only means symlinked directories appear
as ordinary subtrees here.) -/
mutual
inductive DirTree : Type where
  | mk (subdirs : Forest) (files : List String)
inductive Forest : Type where
  | nil
  | cons (name : String) (tree : DirTree) (rest : Forest)
end

/-- The file paths appended to `file_batch` by `batch_os_walk`, in traversal
order, for the forest of subdirectories of a directory at `path`: `os.walk`
yields a directory's own triple first and then descends; subdirectories whose
name starts with `'.'` are pruned from `dirs` before descent when
`skip_hidden` is set; each file path `os.path.join(root, file)` is kept only
if `not skip_hidden or not is_hidden(file_path)`. -/
def Forest.walkFiles (skip_hidden : Bool) : String → Forest → List String
  | _, .nil => []
  | path, .cons name (.mk subdirs files) rest =>
    (if skip_hidden && pyStartsWith name "." then []
     else
       ((files.map (fun f => pathJoin (pathJoin path name) f)).filter
         (fun fp => !skip_hidden || !is_hidden fp)) ++
       Forest.walkFiles skip_hidden (pathJoin path name) subdirs) ++
    Forest.walkFiles skip_hidden path rest
termination_by structural path fo => fo

/-- The full appended-file sequence of `batch_os_walk` starting from the root
`directory` whose contents are `t`. -/
def DirTree.walkFiles (skip_hidden : Bool) (directory : String) : DirTree → List String
  | .mk subdirs files =>
    ((files.map (fun f => pathJoin directory f)).filter
      (fun fp => !skip_hidden || !is_hidden fp)) ++
    Forest.walkFiles skip_hidden directory subdirs

/-- Every directory name and file name in a forest is whitespace-free
(the manifest format's documented limitation: paths containing whitespace are
not supported). -/
def Forest.namesNoWS : Forest → Bool
  | .nil => true
  | .cons name (.mk subdirs files) rest =>
    noWS name && files.all noWS && Forest.namesNoWS subdirs && Forest.namesNoWS rest
termination_by structural fo => fo

/-- Every name under the root directory is whitespace-free. -/
def DirTree.namesNoWS : DirTree → Bool
  | .mk subdirs files => files.all noWS && Forest.namesNoWS subdirs

/-- The batching behaviour of the generator: append each discovered path to
`file_batch`; whenever its length reaches `batch_size`, yield it and reset;
after the traversal, yield the remainder if non-empty. -/
def batchAccum (batch_size : Nat) (file_batch : List String) :
    List String → List (List String)
  | [] => if file_batch.isEmpty then [] else [file_batch]
  | f :: rest =>
    let acc := file_batch ++ [f]
    if acc.length = batch_size then acc :: batchAccum batch_size [] rest
    else batchAccum batch_size acc rest

/-- Model of `batch_os_walk(directory, batch_size, skip_hidden)`: the lazily yielded
batches, as the list of batches in yield order. -/
def batch_os_walk (directory : String) (t : DirTree) (batch_size : Nat)
    (skip_hidden : Bool) : List (List String) :=
  batchAccum batch_size [] (DirTree.walkFiles skip_hidden directory t)

/-! ## Run-level failure -/

/-- The `RuntimeError` raised by the orchestrators' `except Exception`
handlers (wrapping either a worker exception or the fail-fast `ValueError`);
it propagates uncaught through `main`.  The payload is the path interpolated
into the message (empty for the generation orchestrator, whose message only
holds the wrapped exception). -/
inductive RunError : Type where
  | runtimeError (path : String)
deriving DecidableEq

/-! ## Generation orchestrator (`calculate_checksums_multithread`,
source lines 78-108) -/

/-- The `for future in as_completed(futures)` body of the generation
orchestrator: unpack the result, compute the `root`-relative path and print
`f"{calculated_checksum}  {dotslash}{shortened_path}"`; any exception from
`future.result()` is re-raised as `RuntimeError`. -/
def processGenResults (directory_path dotslash : String) (acc : List String) :
    List (Except Unit (String × Option String × Option String)) →
    Except RunError (List String)
  | [] => .ok acc
  | res :: rest =>
    match res with
    | .error _ => .error (.runtimeError "")
    | .ok (file_path, calculated_checksum, _) =>
      processGenResults directory_path dotslash
        (acc ++ [pyStrOfOpt calculated_checksum ++ "  " ++ dotslash ++
          pyRelUnder directory_path file_path]) rest

/-- The per-batch loop of the generation orchestrator: skip paths ending in
`.md5`/`.md5sum` (with a warning), submit the rest to the pool, and process
the batch's results in completion order (`orders i` applied to the submitted
batch). -/
def genLoop (fs : String → FileOutcome)
    (orders : Nat → List (Except Unit (String × Option String × Option String)) →
      List (Except Unit (String × Option String × Option String)))
    (directory_path dotslash : String) (read_size : Nat) :
    List (List String) → Nat → List String → Except RunError (List String)
  | [], _, acc => .ok acc
  | filenames :: rest, i, acc =>
    let futures := (filenames.filter
        (fun f => !(pyEndsWith f ".md5" || pyEndsWith f ".md5sum"))).map
      (fun f => calculate_file_checksum fs f read_size none)
    match processGenResults directory_path dotslash acc (orders i futures) with
    | .error e => .error e
    | .ok acc2 => genLoop fs orders directory_path dotslash read_size rest (i + 1) acc2

/-- Model of `calculate_checksums_multithread(directory_path, max_workers, read_size,
outfile, dotslash, skip_hidden)`: returns the lines printed to `outfile`, or
the propagated `RuntimeError`. -/
def calculate_checksums_multithread (fs : String → FileOutcome)
    (orders : Nat → List (Except Unit (String × Option String × Option String)) →
      List (Except Unit (String × Option String × Option String)))
    (directory_path : String) (t : DirTree) (max_workers read_size : Nat)
    (dotslash : String) (skip_hidden : Bool) : Except RunError (List String) :=
  genLoop fs orders directory_path dotslash read_size
    (batch_os_walk directory_path t (max_workers * 20) skip_hidden) 0 []

/-! ## Verification orchestrator (`verify_checksums_multithread`,
source lines 111-146) -/

/-- The `for future in as_completed(future_to_file)` body: append the triple
`(file_path, calculated, expected)` to `results`, then compare; on mismatch
with `keep_going` unset, the `ValueError` is caught by the inner
`except Exception` and re-raised as `RuntimeError` (whose message interpolates
the re-bound absolute `file_path`), aborting the run; a worker exception
surfacing from `future.result()` is re-raised the same way (with the
pre-rebinding relative `file`, the first pair component here). -/
def processResults (keep_going : Bool) (acc : List (String × Option String × Option String)) :
    List (String × Except Unit (String × Option String × Option String)) →
    Except RunError (List (String × Option String × Option String))
  | [] => .ok acc
  | (file, res) :: rest =>
    match res with
    | .error _ => .error (.runtimeError file)
    | .ok (file_path, calculated_checksum, expected_checksum) =>
      let acc2 := acc ++ [(file_path, calculated_checksum, expected_checksum)]
      if expected_checksum = calculated_checksum then processResults keep_going acc2 rest
      else if keep_going then processResults keep_going acc2 rest
      else .error (.runtimeError file_path)

/-- The futures submitted for one chunk of `(expected_checksum, file)` pairs:
each task hashes `os.path.abspath(os.path.join(directory_path, file))` with
the expected checksum passed through. -/
def chunkOutputs (fs : String → FileOutcome) (directory_path : String)
    (read_size : Nat) (chunk : List (String × String)) :
    List (String × Except Unit (String × Option String × Option String)) :=
  chunk.map (fun pr =>
    (pr.2, calculate_file_checksum fs (pyAbsJoin directory_path pr.2) read_size (some pr.1)))

/-- The chunk loop of the verification orchestrator: submit a whole chunk,
then consume its results in completion order; an error stops the loop before
any later chunk is submitted. -/
def verifyLoop (fs : String → FileOutcome)
    (orders : Nat → List (String × Except Unit (String × Option String × Option String)) →
      List (String × Except Unit (String × Option String × Option String)))
    (directory_path : String) (read_size : Nat) (keep_going : Bool) :
    List (List (String × String)) → Nat →
    List (String × Option String × Option String) →
    Except RunError (List (String × Option String × Option String))
  | [], _, acc => .ok acc
  | chunk :: rest, i, acc =>
    match processResults keep_going acc (orders i (chunkOutputs fs directory_path read_size chunk)) with
    | .error e => .error e
    | .ok acc2 => verifyLoop fs orders directory_path read_size keep_going rest (i + 1) acc2

/-- Model of `verify_checksums_multithread(checksums, directory_path, max_workers,
read_size, keep_going)`: processes the manifest pairs in chunks of
`max_workers * 4` and returns the accumulated `results` ledger — or, when a
comparison fails with `keep_going` unset or a worker raises, the propagated
`RuntimeError` (in which case the local `results` list is lost and nothing is
returned to the caller). -/
def verify_checksums_multithread (fs : String → FileOutcome)
    (orders : Nat → List (String × Except Unit (String × Option String × Option String)) →
      List (String × Except Unit (String × Option String × Option String)))
    (checksums : List (String × String)) (directory_path : String)
    (max_workers read_size : Nat) (keep_going : Bool) :
    Except RunError (List (String × Option String × Option String)) :=
  verifyLoop fs orders directory_path read_size keep_going
    (batch checksums (max_workers * 4)) 0 []

/-- Errors reaching the process boundary of a verify run. -/
inductive MainError : Type where
  | parse (e : ManifestError)
  | run (e : RunError)
deriving DecidableEq

/-- The verify branch of `main`: `read_checksum_file` first, then
`verify_checksums_multithread` — a parse failure therefore precedes any
hashing. -/
def main_verify (fs : String → FileOutcome)
    (orders : Nat → List (String × Except Unit (String × Option String × Option String)) →
      List (String × Except Unit (String × Option String × Option String)))
    (lines : List String) (directory : String) (max_workers read_size : Nat)
    (keep_going : Bool) :
    Except MainError (List (String × Option String × Option String)) :=
  match read_checksum_file lines with
  | .error e => .error (.parse e)
  | .ok checksums =>
    match verify_checksums_multithread fs orders checksums directory max_workers
        read_size keep_going with
    | .error e => .error (.run e)
    | .ok results => .ok results

/-! ## String lemmas -/

theorem splitSep_ne_nil (sep : Char) (l : List Char) : splitSep sep l ≠ [] := by
  induction l with
  | nil => simp [splitSep]
  | cons c cs ih =>
    simp only [splitSep]
    split
    · simp
    · split
      · simp
      · simp

theorem splitSep_append (sep : Char) (a b : List Char) :
    splitSep sep (a ++ sep :: b) = splitSep sep a ++ splitSep sep b := by
  induction a with
  | nil => simp [splitSep]
  | cons c cs ih =>
    by_cases hc : c = sep
    · subst hc
      simp [splitSep, ih]
    · rcases h : splitSep sep cs with _ | ⟨r, rs⟩
      · exact absurd h (splitSep_ne_nil sep cs)
      · simp only [List.cons_append, splitSep, if_neg hc, List.append_eq]
        rw [ih, h]
        simp

theorem stringMk_toList (s : String) : String.mk s.toList = s := rfl

theorem toList_pathJoin (p x : String) :
    (pathJoin p x).toList = p.toList ++ '/' :: x.toList := by
  show (p ++ "/" ++ x).data = p.data ++ '/' :: x.data
  rw [String.data_append, String.data_append]
  have h : "/".data = ['/'] := rfl
  rw [h, List.append_assoc]
  rfl

theorem is_hidden_pathJoin (p x : String) :
    is_hidden (pathJoin p x) = (is_hidden p || is_hidden x) := by
  simp only [is_hidden]
  rw [toList_pathJoin, splitSep_append, List.any_append]

theorem noWS_append (a b : String) : noWS (a ++ b) = (noWS a && noWS b) := by
  show (a ++ b).data.all _ = _
  rw [String.data_append, List.all_append]
  rfl

theorem wordsAux_nonws (w : List Char) (hw : ∀ c ∈ w, c.isWhitespace = false) :
    ∀ (acc rest : List Char), wordsAux acc (w ++ rest) = wordsAux (acc ++ w) rest := by
  induction w with
  | nil => intro acc rest; simp
  | cons c cs ih =>
    intro acc rest
    have hc : c.isWhitespace = false := hw c (List.mem_cons_self c cs)
    simp only [List.cons_append, wordsAux, hc, Bool.false_eq_true, if_false]
    show wordsAux (acc ++ [c]) (cs ++ rest) = wordsAux (acc ++ c :: cs) rest
    rw [ih (fun x hx => hw x (List.mem_cons_of_mem c hx)) (acc ++ [c]) rest]
    rw [List.append_assoc]
    rfl

theorem noWS_chars {s : String} (h : noWS s = true) :
    ∀ c ∈ s.toList, c.isWhitespace = false := by
  intro c hc
  have := List.all_eq_true.mp h c hc
  simpa using this

theorem data_ne_nil_of_ne_empty {s : String} (h : s ≠ "") : s.toList ≠ [] := by
  intro hn
  apply h
  have : String.mk s.toList = String.mk [] := by rw [hn]
  simpa [stringMk_toList] using this

/-- Splitting the formatted line `<digest>  <path>` on whitespace yields
exactly the digest and the path when both are non-empty and whitespace-free. -/
theorem pySplit_digest_path (d p : String) (hd : d ≠ "") (hdw : noWS d = true)
    (hp : p ≠ "") (hpw : noWS p = true) :
    pySplit (d ++ "  " ++ p) = [d, p] := by
  have hdata : (d ++ "  " ++ p).toList = d.toList ++ (' ' :: ' ' :: p.toList) := by
    show ((d ++ "  ") ++ p).data = _
    rw [String.data_append, String.data_append]
    have h2 : "  ".data = [' ', ' '] := rfl
    rw [h2, List.append_assoc]
    rfl
  have hws : (' ' : Char).isWhitespace = true := by decide
  have hdl : d.data ≠ [] := data_ne_nil_of_ne_empty hd
  have hpl : p.data ≠ [] := data_ne_nil_of_ne_empty hp
  have h1 : wordsAux [] (d.toList ++ (' ' :: ' ' :: p.toList)) =
      wordsAux d.toList (' ' :: ' ' :: p.toList) := by
    have := wordsAux_nonws d.toList (noWS_chars hdw) [] (' ' :: ' ' :: p.toList)
    simpa using this
  have h2 : wordsAux d.toList (' ' :: ' ' :: p.toList) =
      d.toList :: wordsAux [] p.toList := by
    simp [wordsAux, hws, hdl]
  have h4 : wordsAux [] p.toList = [p.toList] := by
    have h5 := wordsAux_nonws p.toList (noWS_chars hpw) [] []
    simp only [List.append_nil, List.nil_append] at h5
    rw [h5]
    simp [wordsAux, hpl]
  unfold pySplit
  rw [hdata, h1, h2, h4]
  simp [stringMk_toList]

/-! ## Comment-removal lemmas -/

theorem removeCommentsAux_of_ge (fuel i : Nat) (l : List String) (h : l.length ≤ i) :
    removeCommentsAux fuel i l = l := by
  cases fuel with
  | zero => rfl
  | succ k => simp [removeCommentsAux, Nat.not_lt.mpr h]

theorem pyRemoveFirst_append_of_notMem (x : String) (done rest : List String)
    (h : x ∉ done) : pyRemoveFirst x (done ++ x :: rest) = done ++ rest := by
  induction done with
  | nil => simp [pyRemoveFirst]
  | cons y ys ih =>
    have hy : y ≠ x := fun hc => h (hc ▸ List.mem_cons_self y ys)
    simp only [List.cons_append, pyRemoveFirst, if_neg hy]
    show y :: pyRemoveFirst x (ys ++ x :: rest) = y :: (ys ++ rest)
    rw [ih (fun hc => h (List.mem_cons_of_mem y hc))]

theorem noAdjComments_tail {a : String} {rest : List String}
    (h : noAdjComments (a :: rest) = true) : noAdjComments rest = true := by
  cases rest with
  | nil => rfl
  | cons b bs =>
    simp only [noAdjComments, Bool.and_eq_true] at h
    exact h.2

/-- The mutate-while-iterating comment loop, run from a position where
everything before the index is a retained non-comment line: when no two
consecutive lines of the remaining part both start with `#`, it removes
exactly the lines starting with `#`.  (A removed line shifts its successor
under the advancing index, so the successor is never examined — harmless
precisely when that successor is not itself a comment line.) -/
theorem removeCommentsAux_noAdj :
    ∀ (todo done : List String) (fuel : Nat), todo.length ≤ fuel →
    (∀ x ∈ done, pyStartsWith x "#" = false) → noAdjComments todo = true →
    removeCommentsAux fuel done.length (done ++ todo) =
      done ++ todo.filter (fun l => !pyStartsWith l "#")
  | [], done, fuel, _, _, _ => by
    simp only [List.append_nil, List.filter_nil]
    exact removeCommentsAux_of_ge fuel done.length done (Nat.le_refl _)
  | t :: ts, done, fuel, hfuel, hdone, hadj => by
    obtain ⟨k, rfl⟩ : ∃ k, fuel = k + 1 := by
      cases fuel with
      | zero => exact absurd hfuel (by simp)
      | succ k => exact ⟨k, rfl⟩
    have hlen : done.length < (done ++ t :: ts).length := by
      simp [List.length_append]
    have hget : (done ++ t :: ts).get ⟨done.length, hlen⟩ = t := by
      simp [List.get_eq_getElem, List.getElem_append_right (Nat.le_refl done.length)]
    simp only [removeCommentsAux, dif_pos hlen, hget]
    by_cases ht : pyStartsWith t "#" = true
    · rw [if_pos ht]
      have htnd : t ∉ done := fun hc => by rw [hdone t hc] at ht; exact Bool.false_ne_true ht
      rw [pyRemoveFirst_append_of_notMem t done ts htnd]
      cases ts with
      | nil =>
        rw [removeCommentsAux_of_ge k (done.length + 1) (done ++ [])
          (by simp [List.length_append])]
        simp [List.filter, ht]
      | cons u us =>
        have hu : pyStartsWith u "#" = false := by
          simp only [noAdjComments, Bool.and_eq_true, Bool.not_eq_true',
            Bool.and_eq_false_iff] at hadj
          rcases hadj.1 with h | h
          · rw [h] at ht; exact absurd ht Bool.false_ne_true
          · exact h
        have hrw : done ++ u :: us = (done ++ [u]) ++ us := by simp
        have hlen2 : done.length + 1 = (done ++ [u]).length := by simp
        rw [hrw, hlen2,
          removeCommentsAux_noAdj us (done ++ [u]) k
            (by have := hfuel; simp at this ⊢; omega)
            (by intro x hx
                rcases List.mem_append.mp hx with hx | hx
                · exact hdone x hx
                · rw [List.mem_singleton.mp hx]; exact hu)
            (noAdjComments_tail (noAdjComments_tail hadj))]
        simp [List.filter, ht, hu]
    · rw [if_neg ht]
      have ht' : pyStartsWith t "#" = false := Bool.not_eq_true _ ▸ by
        simpa using ht
      have hrw : done ++ t :: ts = (done ++ [t]) ++ ts := by simp
      have hlen2 : done.length + 1 = (done ++ [t]).length := by simp
      rw [hrw, hlen2,
        removeCommentsAux_noAdj ts (done ++ [t]) k
          (by have := hfuel; simp at this ⊢; omega)
          (by intro x hx
              rcases List.mem_append.mp hx with hx | hx
              · exact hdone x hx
              · rw [List.mem_singleton.mp hx]; exact ht')
          (noAdjComments_tail hadj)]
      simp [List.filter, ht']

/-- Under no-adjacent-comment-lines, `removeComments` is a plain filter. -/
theorem removeComments_noAdj (lines : List String) (h : noAdjComments lines = true) :
    removeComments lines = lines.filter (fun l => !pyStartsWith l "#") := by
  have := removeCommentsAux_noAdj lines [] lines.length (Nat.le_refl _)
    (by intro x hx; simp at hx) h
  simpa [removeComments] using this

theorem noAdjComments_of_no_comments (lines : List String)
    (h : ∀ l ∈ lines, pyStartsWith l "#" = false) : noAdjComments lines = true := by
  induction lines with
  | nil => rfl
  | cons a rest ih =>
    cases rest with
    | nil => rfl
    | cons b bs =>
      simp only [noAdjComments, Bool.and_eq_true]
      refine ⟨?_, ih (fun x hx => h x (List.mem_cons_of_mem a hx))⟩
      rw [h a (List.mem_cons_self a _)]
      rfl

/-- When no line starts with `#`, the comment-stripping loop is the identity. -/
theorem removeComments_of_no_comments (lines : List String)
    (h : ∀ l ∈ lines, pyStartsWith l "#" = false) : removeComments lines = lines := by
  rw [removeComments_noAdj lines (noAdjComments_of_no_comments lines h)]
  refine List.filter_eq_self.mpr ?_
  intro a ha
  rw [h a ha]
  rfl

/-! ## Batching lemmas -/

theorem batchAccum_flatten (bs : Nat) :
    ∀ (files acc : List String), (batchAccum bs acc files).flatten = acc ++ files := by
  intro files
  induction files with
  | nil =>
    intro acc
    cases acc <;> simp [batchAccum]
  | cons f rest ih =>
    intro acc
    simp only [batchAccum]
    split
    · simp [ih]
    · simp [ih]

theorem batchAccum_sizes (bs : Nat) :
    ∀ (files acc : List String), (acc.length < bs ∨ bs = 0) →
      (∀ b ∈ (batchAccum bs acc files).dropLast, b.length = bs) ∧
      (∀ b ∈ batchAccum bs acc files, b ≠ []) := by
  intro files
  induction files with
  | nil =>
    intro acc _
    by_cases h : acc.isEmpty
    · simp [batchAccum, h]
    · simp only [batchAccum, h, if_false, Bool.false_eq_true]
      constructor
      · simp
      · intro b hb
        rw [List.mem_singleton.mp hb]
        simpa [List.isEmpty_iff] using h
  | cons f rest ih =>
    intro acc hacc
    simp only [batchAccum]
    by_cases hfull : (acc ++ [f]).length = bs
    · rw [if_pos hfull]
      have hbs1 : 1 ≤ bs := by
        rw [← hfull]; simp
      have hz : ([] : List String).length < bs ∨ bs = 0 := Or.inl hbs1
      obtain ⟨ih1, ih2⟩ := ih [] hz
      constructor
      · intro b hb
        rcases hr : batchAccum bs [] rest with _ | ⟨r, rs⟩
        · rw [hr] at hb
          simp at hb
        · rw [hr, List.dropLast_cons₂] at hb
          rcases List.mem_cons.mp hb with hb | hb
          · rw [hb]; exact hfull
          · rw [← hr] at hb
            exact ih1 b hb
      · intro b hb
        rcases List.mem_cons.mp hb with hb | hb
        · rw [hb]
          intro hc
          rw [hc] at hfull
          simp at hfull
          omega
        · exact ih2 b hb
    · rw [if_neg hfull]
      apply ih
      rcases hacc with hacc | hacc
      · left
        have : (acc ++ [f]).length = acc.length + 1 := by simp
        omega
      · right
        exact hacc

theorem batchAux_flatten {α : Type} (n : Nat) (hn : 1 ≤ n) :
    ∀ (fuel : Nat) (l : List α), l.length ≤ fuel → (batchAux n fuel l).flatten = l := by
  intro fuel
  induction fuel with
  | zero =>
    intro l hl
    have : l = [] := List.length_eq_zero.mp (Nat.le_zero.mp hl)
    rw [this]
    rfl
  | succ k ih =>
    intro l hl
    cases l with
    | nil => rfl
    | cons x xs =>
      simp only [batchAux, List.flatten_cons]
      rw [ih ((x :: xs).drop n)
        (by have hl' := hl
            simp only [List.length_drop, List.length_cons] at hl' ⊢
            omega)]
      exact List.take_append_drop n (x :: xs)

theorem batch_flatten {α : Type} (l : List α) (n : Nat) (hn : 1 ≤ n) :
    (batch l n).flatten = l := by
  unfold batch
  rw [if_neg (by omega)]
  exact batchAux_flatten n hn l.length l (Nat.le_refl _)

/-! ## Tree-walk lemmas -/

theorem forestWalkFiles_not_hidden : ∀ (fo : Forest) (path p : String),
    p ∈ Forest.walkFiles true path fo → is_hidden p = false
  | .nil, _, p, hp => by simp [Forest.walkFiles] at hp
  | .cons name (.mk subdirs files) rest, path, p, hp => by
    simp only [Forest.walkFiles] at hp
    rcases List.mem_append.mp hp with hp | hp
    · split at hp
      · simp at hp
      · rcases List.mem_append.mp hp with hp | hp
        · have := List.of_mem_filter hp
          simpa using this
        · exact forestWalkFiles_not_hidden subdirs _ p hp
    · exact forestWalkFiles_not_hidden rest path p hp

theorem treeWalkFiles_not_hidden (t : DirTree) (dir p : String)
    (hp : p ∈ DirTree.walkFiles true dir t) : is_hidden p = false := by
  obtain ⟨subdirs, files⟩ := t
  simp only [DirTree.walkFiles] at hp
  rcases List.mem_append.mp hp with hp | hp
  · have := List.of_mem_filter hp
    simpa using this
  · exact forestWalkFiles_not_hidden subdirs dir p hp

theorem forestWalkFiles_nil_of_hidden : ∀ (fo : Forest) (path : String),
    is_hidden path = true → Forest.walkFiles true path fo = []
  | .nil, _, _ => rfl
  | .cons name (.mk subdirs files) rest, path, hpath => by
    simp only [Forest.walkFiles]
    rw [forestWalkFiles_nil_of_hidden rest path hpath]
    split
    · rfl
    · rw [forestWalkFiles_nil_of_hidden subdirs (pathJoin path name)
        (by rw [is_hidden_pathJoin, hpath]; rfl)]
      rw [List.filter_eq_nil_iff.mpr ?_]
      · rfl
      · intro fp hfp
        obtain ⟨f, _, rfl⟩ := List.mem_map.mp hfp
        rw [is_hidden_pathJoin, is_hidden_pathJoin, hpath]
        simp

theorem treeWalkFiles_nil_of_hidden (t : DirTree) (dir : String)
    (hdir : is_hidden dir = true) : DirTree.walkFiles true dir t = [] := by
  obtain ⟨subdirs, files⟩ := t
  simp only [DirTree.walkFiles]
  rw [forestWalkFiles_nil_of_hidden subdirs dir hdir]
  rw [List.filter_eq_nil_iff.mpr ?_]
  · rfl
  · intro fp hfp
    obtain ⟨f, _, rfl⟩ := List.mem_map.mp hfp
    rw [is_hidden_pathJoin, hdir]
    simp

theorem noWS_slash : noWS "/" = true := by decide

/-- Every path produced by the walk below `path` is `path ++ "/" ++ rel` for
a whitespace-free remainder `rel` (when all names in the forest are
whitespace-free). -/
theorem forestWalkFiles_shape : ∀ (fo : Forest) (skip : Bool) (path p : String),
    Forest.namesNoWS fo = true → p ∈ Forest.walkFiles skip path fo →
    ∃ rel, p = path ++ "/" ++ rel ∧ noWS rel = true
  | .nil, _, _, p, _, hp => by simp [Forest.walkFiles] at hp
  | .cons name (.mk subdirs files) rest, skip, path, p, hnames, hp => by
    simp only [Forest.namesNoWS, Bool.and_eq_true] at hnames
    obtain ⟨⟨⟨hname, hfiles⟩, hsub⟩, hrest⟩ := hnames
    simp only [Forest.walkFiles] at hp
    rcases List.mem_append.mp hp with hp | hp
    · split at hp
      · simp at hp
      · rcases List.mem_append.mp hp with hp | hp
        · obtain ⟨f, hf, rfl⟩ := List.mem_map.mp (List.mem_of_mem_filter hp)
          refine ⟨name ++ "/" ++ f, ?_, ?_⟩
          · show pathJoin path name ++ "/" ++ f = _
            unfold pathJoin
            simp [String.append_assoc]
          · rw [noWS_append, noWS_append, hname, noWS_slash,
              List.all_eq_true.mp hfiles f hf]
            rfl
        · obtain ⟨rel, hrel, hrw⟩ :=
            forestWalkFiles_shape subdirs skip (pathJoin path name) p hsub hp
          refine ⟨name ++ "/" ++ rel, ?_, ?_⟩
          · rw [hrel]
            show pathJoin path name ++ "/" ++ rel = _
            unfold pathJoin
            simp [String.append_assoc]
          · rw [noWS_append, noWS_append, hname, noWS_slash, hrw]
            rfl
    · exact forestWalkFiles_shape rest skip path p hrest hp

/-- Every path produced by the walk of the root is `dir ++ "/" ++ rel` for a
whitespace-free `rel`. -/
theorem treeWalkFiles_shape (t : DirTree) (skip : Bool) (dir p : String)
    (hnames : DirTree.namesNoWS t = true) (hp : p ∈ DirTree.walkFiles skip dir t) :
    ∃ rel, p = dir ++ "/" ++ rel ∧ noWS rel = true := by
  obtain ⟨subdirs, files⟩ := t
  simp only [DirTree.namesNoWS, Bool.and_eq_true] at hnames
  obtain ⟨hfiles, hsub⟩ := hnames
  simp only [DirTree.walkFiles] at hp
  rcases List.mem_append.mp hp with hp | hp
  · obtain ⟨f, hf, rfl⟩ := List.mem_map.mp (List.mem_of_mem_filter hp)
    exact ⟨f, rfl, List.all_eq_true.mp hfiles f hf⟩
  · exact forestWalkFiles_shape subdirs skip dir p hsub hp

/-! ## Parsing lemmas -/

theorem parseLine_of_two {line t0 t1 : String} {rest : List String}
    (h : pySplit line = t0 :: t1 :: rest) : parseLine line = .ok (t0, t1) := by
  simp [parseLine, h]

theorem parseLine_error_of_short {line : String}
    (h : (pySplit line).length < 2) : parseLine line = .error .malformedLine := by
  unfold parseLine
  rcases hs : pySplit line with _ | ⟨a, _ | ⟨b, rest⟩⟩
  · rfl
  · rfl
  · rw [hs] at h
    simp at h
    omega

theorem parseLines_ok_of_all (Q : String → String × String → Prop) :
    ∀ (lines : List String),
    (∀ line ∈ lines, ∃ pr, parseLine line = .ok pr ∧ Q line pr) →
    ∃ prs, parseLines lines = .ok prs ∧ prs.length = lines.length ∧
      ∀ pr ∈ prs, ∃ line ∈ lines, Q line pr := by
  intro lines
  induction lines with
  | nil => exact fun _ => ⟨[], rfl, rfl, by simp⟩
  | cons line rest ih =>
    intro h
    obtain ⟨pr, hpr, hQ⟩ := h line (List.mem_cons_self _ _)
    obtain ⟨prs, hprs, hlen, hmem⟩ := ih (fun l hl => h l (List.mem_cons_of_mem _ hl))
    refine ⟨pr :: prs, ?_, by simp [hlen], ?_⟩
    · simp [parseLines, hpr, hprs]
    · intro x hx
      rcases List.mem_cons.mp hx with hx | hx
      · exact ⟨line, List.mem_cons_self _ _, hx ▸ hQ⟩
      · obtain ⟨l, hl, hQl⟩ := hmem x hx
        exact ⟨l, List.mem_cons_of_mem _ hl, hQl⟩

theorem parseLines_error_of_mem {line : String} :
    ∀ (lines : List String), line ∈ lines → parseLine line = .error .malformedLine →
    parseLines lines = .error .malformedLine := by
  intro lines
  induction lines with
  | nil => intro h; simp at h
  | cons a rest ih =>
    intro hmem herr
    rcases ha : parseLine a with e | pr
    · cases e
      simp [parseLines, ha]
    · rcases List.mem_cons.mp hmem with hl | hl
      · subst hl
        rw [herr] at ha
        cases ha
      · have := ih hl herr
        simp [parseLines, ha, this]

theorem pyStartsWith_hash_append {d : String} (s : String) (hd : d ≠ "") :
    pyStartsWith (d ++ s) "#" = pyStartsWith d "#" := by
  rcases hdata : d.data with _ | ⟨c, cs⟩
  · exact absurd hdata (data_ne_nil_of_ne_empty hd)
  · show List.isPrefixOf "#".toList (d ++ s).toList = List.isPrefixOf "#".toList d.toList
    have h1 : (d ++ s).toList = c :: (cs ++ s.toList) := by
      show (d ++ s).data = _
      rw [String.data_append, hdata]
      rfl
    have h2 : d.toList = c :: cs := hdata
    rw [h1, h2]
    show ('#' == c && List.isPrefixOf [] (cs ++ s.toList)) =
      ('#' == c && List.isPrefixOf [] cs)
    simp [List.isPrefixOf]

theorem pyRelUnder_append (root rel : String) :
    pyRelUnder root (root ++ "/" ++ rel) = rel := by
  unfold pyRelUnder
  have h1 : (root ++ "/" ++ rel).toList = (root.toList ++ ['/']) ++ rel.toList := by
    rw [show root ++ "/" ++ rel = pathJoin root rel from rfl, toList_pathJoin]
    simp
  have h2 : root.toList.length + 1 = (root.toList ++ ['/']).length := by simp
  rw [h1, h2, List.drop_left]
  exact stringMk_toList rel

theorem pyAbsJoin_dotslash (root rel : String) :
    pyAbsJoin root ("./" ++ rel) = root ++ "/" ++ rel := by
  have hdata : ("./" ++ rel).toList = '.' :: '/' :: rel.toList := by
    show ("./" ++ rel).data = _
    rw [String.data_append]
    rfl
  unfold pyAbsJoin
  rw [if_neg ?_, if_pos ?_]
  · rw [show ("./" ++ rel).toList = ['.', '/'] ++ rel.toList from hdata]
    have h2 : (['.', '/'] ++ rel.toList).drop 2 = rel.toList := rfl
    rw [h2, stringMk_toList]
  · show List.isPrefixOf "./".toList ("./" ++ rel).toList = true
    rw [hdata]
    show List.isPrefixOf ['.', '/'] ('.' :: '/' :: rel.toList) = true
    simp [List.isPrefixOf]
  · show ¬List.isPrefixOf "/".toList ("./" ++ rel).toList = true
    rw [hdata]
    show ¬List.isPrefixOf ['/'] ('.' :: '/' :: rel.toList) = true
    simp [List.isPrefixOf]

/-! ## Verification-loop lemmas -/

theorem processResults_ok_length (kg : Bool) :
    ∀ (l : List (String × Except Unit (String × Option String × Option String)))
      (acc res : List (String × Option String × Option String)),
      processResults kg acc l = .ok res → res.length = acc.length + l.length := by
  intro l
  induction l with
  | nil =>
    intro acc res h
    simp only [processResults] at h
    cases h
    simp
  | cons x rest ih =>
    intro acc res h
    obtain ⟨f, r⟩ := x
    rcases r with u | ⟨p, c, e⟩
    · simp [processResults] at h
    · simp only [processResults] at h
      split at h
      · have := ih _ _ h
        simp only [List.length_append, List.length_singleton] at this
        simp [this]
        omega
      · split at h
        · have := ih _ _ h
          simp only [List.length_append, List.length_singleton] at this
          simp [this]
          omega
        · cases h

theorem processResults_ok_isPrefixOf (kg : Bool) :
    ∀ (l : List (String × Except Unit (String × Option String × Option String)))
      (acc res : List (String × Option String × Option String)),
      processResults kg acc l = .ok res → acc <+: res := by
  intro l
  induction l with
  | nil =>
    intro acc res h
    simp only [processResults] at h
    cases h
    exact List.prefix_refl acc
  | cons x rest ih =>
    intro acc res h
    obtain ⟨f, r⟩ := x
    rcases r with u | ⟨p, c, e⟩
    · simp [processResults] at h
    · simp only [processResults] at h
      have hstep : acc <+: acc ++ [(p, c, e)] := List.prefix_append acc _
      split at h
      · exact hstep.trans (ih _ _ h)
      · split at h
        · exact hstep.trans (ih _ _ h)
        · cases h

theorem verifyLoop_ok_length (fs : String → FileOutcome)
    (orders : Nat → List (String × Except Unit (String × Option String × Option String)) →
      List (String × Except Unit (String × Option String × Option String)))
    (hOrd : ∀ i l, (orders i l).Perm l) (dir : String) (rs : Nat) (kg : Bool) :
    ∀ (chunks : List (List (String × String))) (i : Nat)
      (acc res : List (String × Option String × Option String)),
      verifyLoop fs orders dir rs kg chunks i acc = .ok res →
      res.length = acc.length + (chunks.map List.length).sum := by
  intro chunks
  induction chunks with
  | nil =>
    intro i acc res h
    simp only [verifyLoop] at h
    cases h
    simp
  | cons chunk rest ih =>
    intro i acc res h
    simp only [verifyLoop] at h
    rcases hp : processResults kg acc
        (orders i (chunkOutputs fs dir rs chunk)) with e | acc2
    · rw [hp] at h
      cases h
    · rw [hp] at h
      have h1 := processResults_ok_length kg _ _ _ hp
      have h2 : (orders i (chunkOutputs fs dir rs chunk)).length = chunk.length := by
        rw [(hOrd i _).length_eq]
        simp [chunkOutputs]
      have h3 := ih (i + 1) acc2 res h
      rw [h3, h1, h2]
      simp
      omega

theorem verifyLoop_ok_isPrefixOf (fs : String → FileOutcome)
    (orders : Nat → List (String × Except Unit (String × Option String × Option String)) →
      List (String × Except Unit (String × Option String × Option String)))
    (dir : String) (rs : Nat) (kg : Bool) :
    ∀ (chunks : List (List (String × String))) (i : Nat)
      (acc res : List (String × Option String × Option String)),
      verifyLoop fs orders dir rs kg chunks i acc = .ok res → acc <+: res := by
  intro chunks
  induction chunks with
  | nil =>
    intro i acc res h
    simp only [verifyLoop] at h
    cases h
    exact List.prefix_refl acc
  | cons chunk rest ih =>
    intro i acc res h
    simp only [verifyLoop] at h
    rcases hp : processResults kg acc
        (orders i (chunkOutputs fs dir rs chunk)) with e | acc2
    · rw [hp] at h
      cases h
    · rw [hp] at h
      exact (processResults_ok_isPrefixOf kg _ _ _ hp).trans (ih (i + 1) acc2 res h)

theorem processResults_ok_matches :
    ∀ (l : List (String × Except Unit (String × Option String × Option String)))
      (acc res : List (String × Option String × Option String)),
      processResults false acc l = .ok res →
      (∀ t ∈ acc, t.2.2 = t.2.1) → ∀ t ∈ res, t.2.2 = t.2.1 := by
  intro l
  induction l with
  | nil =>
    intro acc res h hacc
    simp only [processResults] at h
    cases h
    exact hacc
  | cons x rest ih =>
    intro acc res h hacc
    obtain ⟨f, r⟩ := x
    rcases r with u | ⟨p, c, e⟩
    · simp [processResults] at h
    · simp only [processResults] at h
      split at h
      · rename_i heq
        refine ih _ _ h ?_
        intro t ht
        rcases List.mem_append.mp ht with ht | ht
        · exact hacc t ht
        · rw [List.mem_singleton.mp ht]
          exact heq
      · simp only [Bool.false_eq_true, if_false] at h
        cases h

theorem verifyLoop_ok_matches (fs : String → FileOutcome)
    (orders : Nat → List (String × Except Unit (String × Option String × Option String)) →
      List (String × Except Unit (String × Option String × Option String)))
    (dir : String) (rs : Nat) :
    ∀ (chunks : List (List (String × String))) (i : Nat)
      (acc res : List (String × Option String × Option String)),
      verifyLoop fs orders dir rs false chunks i acc = .ok res →
      (∀ t ∈ acc, t.2.2 = t.2.1) → ∀ t ∈ res, t.2.2 = t.2.1 := by
  intro chunks
  induction chunks with
  | nil =>
    intro i acc res h hacc
    simp only [verifyLoop] at h
    cases h
    exact hacc
  | cons chunk rest ih =>
    intro i acc res h hacc
    simp only [verifyLoop] at h
    rcases hp : processResults false acc
        (orders i (chunkOutputs fs dir rs chunk)) with e | acc2
    · rw [hp] at h
      cases h
    · rw [hp] at h
      exact ih (i + 1) acc2 res h (processResults_ok_matches _ _ _ hp hacc)

theorem processResults_all_ok (kg : Bool) :
    ∀ (l : List (String × Except Unit (String × Option String × Option String)))
      (acc : List (String × Option String × Option String)),
      (∀ x ∈ l, ∃ p dg, x.2 = .ok (p, some dg, some dg)) →
      ∃ res, processResults kg acc l = .ok res ∧
        res.length = acc.length + l.length ∧
        (∀ t ∈ res, t ∈ acc ∨ t.2.2 = t.2.1) := by
  intro l
  induction l with
  | nil =>
    intro acc _
    exact ⟨acc, rfl, by simp, fun t ht => Or.inl ht⟩
  | cons x rest ih =>
    intro acc hl
    obtain ⟨p, dg, hx⟩ := hl x (List.mem_cons_self _ _)
    obtain ⟨f, r⟩ := x
    simp only at hx
    rw [hx]
    obtain ⟨res, hres, hlen, hmem⟩ :=
      ih (acc ++ [(p, some dg, some dg)]) (fun y hy => hl y (List.mem_cons_of_mem _ hy))
    refine ⟨res, ?_, ?_, ?_⟩
    · simp [processResults, hres]
    · rw [hlen]
      simp
      omega
    · intro t ht
      rcases hmem t ht with ht2 | ht2
      · rcases List.mem_append.mp ht2 with ht3 | ht3
        · exact Or.inl ht3
        · right
          rw [List.mem_singleton.mp ht3]
      · exact Or.inr ht2

theorem verifyLoop_all_ok (fs : String → FileOutcome)
    (orders : Nat → List (String × Except Unit (String × Option String × Option String)) →
      List (String × Except Unit (String × Option String × Option String)))
    (hOrd : ∀ i l, (orders i l).Perm l) (dir : String) (rs : Nat) (kg : Bool) :
    ∀ (chunks : List (List (String × String))) (i : Nat)
      (acc : List (String × Option String × Option String)),
      (∀ ch ∈ chunks, ∀ pr ∈ ch, fs (pyAbsJoin dir pr.2) = .found pr.1) →
      ∃ res, verifyLoop fs orders dir rs kg chunks i acc = .ok res ∧
        res.length = acc.length + (chunks.map List.length).sum ∧
        (∀ t ∈ res, t ∈ acc ∨ t.2.2 = t.2.1) := by
  intro chunks
  induction chunks with
  | nil =>
    intro i acc _
    exact ⟨acc, rfl, by simp, fun t ht => Or.inl ht⟩
  | cons chunk rest ih =>
    intro i acc hch
    have hall : ∀ x ∈ orders i (chunkOutputs fs dir rs chunk),
        ∃ p dg, x.2 = .ok (p, some dg, some dg) := by
      intro x hx
      have hx2 : x ∈ chunkOutputs fs dir rs chunk := (hOrd i _).mem_iff.mp hx
      obtain ⟨pr, hpr, rfl⟩ := List.mem_map.mp hx2
      have hfs := hch chunk (List.mem_cons_self _ _) pr hpr
      refine ⟨pyAbsJoin dir pr.2, pr.1, ?_⟩
      simp [calculate_file_checksum, hfs]
    obtain ⟨acc2, hacc2, hlen2, hmem2⟩ :=
      processResults_all_ok kg (orders i (chunkOutputs fs dir rs chunk)) acc hall
    obtain ⟨res, hres, hlen, hmem⟩ :=
      ih (i + 1) acc2 (fun ch hc => hch ch (List.mem_cons_of_mem _ hc))
    refine ⟨res, ?_, ?_, ?_⟩
    · simp only [verifyLoop]
      rw [hacc2]
      exact hres
    · rw [hlen, hlen2]
      have h2 : (orders i (chunkOutputs fs dir rs chunk)).length = chunk.length := by
        rw [(hOrd i _).length_eq]
        simp [chunkOutputs]
      rw [h2]
      simp
      omega
    · intro t ht
      rcases hmem t ht with ht2 | ht2
      · rcases hmem2 t ht2 with ht3 | ht3
        · exact Or.inl ht3
        · exact Or.inr ht3
      · exact Or.inr ht2

/-! ## Generation-loop lemmas -/

theorem ne_empty_of_toList_ne_nil {s : String} (h : s.toList ≠ []) : s ≠ "" :=
  fun he => h (by rw [he]; rfl)

theorem processGenResults_ok (R : String → String → Prop) (dir ds : String) :
    ∀ (l : List (Except Unit (String × Option String × Option String)))
      (acc : List String),
      (∀ r ∈ l, ∃ p dg, r = .ok (p, some dg, none) ∧ R p dg) →
      ∃ out, processGenResults dir ds acc l = .ok out ∧
        ∀ x ∈ out, x ∈ acc ∨
          ∃ p dg, R p dg ∧ x = dg ++ "  " ++ ds ++ pyRelUnder dir p := by
  intro l
  induction l with
  | nil =>
    intro acc _
    exact ⟨acc, rfl, fun x hx => Or.inl hx⟩
  | cons r rest ih =>
    intro acc hl
    obtain ⟨p, dg, hr, hR⟩ := hl r (List.mem_cons_self _ _)
    subst hr
    obtain ⟨out, hout, hmem⟩ :=
      ih (acc ++ [pyStrOfOpt (some dg) ++ "  " ++ ds ++ pyRelUnder dir p])
        (fun y hy => hl y (List.mem_cons_of_mem _ hy))
    refine ⟨out, hout, ?_⟩
    intro x hx
    rcases hmem x hx with hx2 | hx2
    · rcases List.mem_append.mp hx2 with hx3 | hx3
      · exact Or.inl hx3
      · right
        exact ⟨p, dg, hR, List.mem_singleton.mp hx3⟩
    · exact Or.inr hx2

theorem genLoop_ok (fs : String → FileOutcome)
    (orders : Nat → List (Except Unit (String × Option String × Option String)) →
      List (Except Unit (String × Option String × Option String)))
    (hOrd : ∀ i l, (orders i l).Perm l) (dir ds : String) (rs : Nat)
    (allFiles : List String)
    (hfs : ∀ p ∈ allFiles, ∃ dg, fs p = .found dg) :
    ∀ (batches : List (List String)),
      (∀ b ∈ batches, ∀ f ∈ b, f ∈ allFiles) →
      ∀ (i : Nat) (acc : List String),
      ∃ lines, genLoop fs orders dir ds rs batches i acc = .ok lines ∧
        ∀ x ∈ lines, x ∈ acc ∨
          ∃ p dg, (p ∈ allFiles ∧ fs p = .found dg) ∧
            x = dg ++ "  " ++ ds ++ pyRelUnder dir p := by
  intro batches
  induction batches with
  | nil =>
    intro _ i acc
    exact ⟨acc, rfl, fun x hx => Or.inl hx⟩
  | cons filenames rest ih =>
    intro hb i acc
    have hsubmitted : ∀ r ∈ orders i ((filenames.filter
          (fun f => !(pyEndsWith f ".md5" || pyEndsWith f ".md5sum"))).map
        (fun f => calculate_file_checksum fs f rs none)),
        ∃ p dg, r = .ok (p, some dg, none) ∧ (p ∈ allFiles ∧ fs p = .found dg) := by
      intro r hr
      have hr2 := (hOrd i _).mem_iff.mp hr
      obtain ⟨f, hf, rfl⟩ := List.mem_map.mp hr2
      have hfa : f ∈ allFiles :=
        hb filenames (List.mem_cons_self _ _) f (List.mem_of_mem_filter hf)
      obtain ⟨dg, hdg⟩ := hfs f hfa
      exact ⟨f, dg, by simp [calculate_file_checksum, hdg], hfa, hdg⟩
    obtain ⟨out, hout, hmem⟩ :=
      processGenResults_ok (fun p dg => p ∈ allFiles ∧ fs p = .found dg) dir ds
        _ acc hsubmitted
    obtain ⟨lines, hlines, hmem2⟩ :=
      ih (fun b hbm => hb b (List.mem_cons_of_mem _ hbm)) (i + 1) out
    refine ⟨lines, ?_, ?_⟩
    · simp only [genLoop]
      rw [hout]
      exact hlines
    · intro x hx
      rcases hmem2 x hx with hx2 | hx2
      · exact hmem x hx2
      · exact Or.inr hx2

/-! ## Claim theorems -/

/-- C7: for every directory tree and every batch size, `batch_os_walk` yields
the discovered (non-skipped) file paths as batches whose concatenation is
exactly the discovered sequence, where every batch except possibly the last
has exactly `batch_size` paths, and every yielded batch (in particular the
final partial one) is non-empty. -/
theorem c7_batch_shape (dir : String) (t : DirTree) (batch_size : Nat) (skip : Bool) :
    (batch_os_walk dir t batch_size skip).flatten = DirTree.walkFiles skip dir t ∧
    (∀ b ∈ (batch_os_walk dir t batch_size skip).dropLast, b.length = batch_size) ∧
    (∀ b ∈ batch_os_walk dir t batch_size skip, b ≠ []) := by
  have hinit : ([] : List String).length < batch_size ∨ batch_size = 0 := by
    cases batch_size with
    | zero => exact Or.inr rfl
    | succ n => exact Or.inl (Nat.succ_pos n)
  obtain ⟨h1, h2⟩ := batchAccum_sizes batch_size (DirTree.walkFiles skip dir t) [] hinit
  refine ⟨?_, h1, h2⟩
  have := batchAccum_flatten batch_size (DirTree.walkFiles skip dir t) []
  simpa [batch_os_walk] using this

/-- Witness for C7 at a concrete tree (`/r` containing `a.txt`, `b.txt` and
`sub/c.txt`, batch size 2): the inner membership hypotheses are discharged on
a concrete batch. -/
theorem c7_batch_shape_witness :
    (batch_os_walk "/r"
        (DirTree.mk (Forest.cons "sub" (DirTree.mk .nil ["c.txt"]) .nil)
          ["a.txt", "b.txt"]) 2 true).flatten =
      DirTree.walkFiles true "/r"
        (DirTree.mk (Forest.cons "sub" (DirTree.mk .nil ["c.txt"]) .nil)
          ["a.txt", "b.txt"]) ∧
    (["/r/a.txt", "/r/b.txt"] : List String).length = 2 ∧
    (["/r/sub/c.txt"] : List String) ≠ [] := by
  refine ⟨(c7_batch_shape "/r" _ 2 true).1, ?_, ?_⟩
  · exact (c7_batch_shape "/r"
      (DirTree.mk (Forest.cons "sub" (DirTree.mk .nil ["c.txt"]) .nil)
        ["a.txt", "b.txt"]) 2 true).2.1 ["/r/a.txt", "/r/b.txt"] (by decide)
  · exact (c7_batch_shape "/r"
      (DirTree.mk (Forest.cons "sub" (DirTree.mk .nil ["c.txt"]) .nil)
        ["a.txt", "b.txt"]) 2 true).2.2 ["/r/sub/c.txt"] (by decide)

/-- C8: with `skip_hidden = true`, no enumerated path has any component
starting with `.` (hidden directories are pruned before descent and hidden
files are filtered), and for the spec's concrete example — a directory
containing `.hidden/file.txt` and `visible.txt` — only `visible.txt` is
enumerated. -/
theorem c8_skip_hidden :
    (∀ (dir : String) (t : DirTree) (bs : Nat) (p : String),
      p ∈ (batch_os_walk dir t bs true).flatten → is_hidden p = false) ∧
    batch_os_walk "/r"
        (DirTree.mk (Forest.cons ".hidden" (DirTree.mk .nil ["file.txt"]) .nil)
          ["visible.txt"]) 100 true = [["/r/visible.txt"]] := by
  constructor
  · intro dir t bs p hp
    have h1 : (batch_os_walk dir t bs true).flatten = DirTree.walkFiles true dir t := by
      have := batchAccum_flatten bs (DirTree.walkFiles true dir t) []
      simpa [batch_os_walk] using this
    rw [h1] at hp
    exact treeWalkFiles_not_hidden t dir p hp
  · decide

/-- Witness for C8, discharging the membership hypothesis at the concrete
enumerated path. -/
theorem c8_skip_hidden_witness :
    is_hidden "/r/visible.txt" = false ∧
    batch_os_walk "/r"
        (DirTree.mk (Forest.cons ".hidden" (DirTree.mk .nil ["file.txt"]) .nil)
          ["visible.txt"]) 100 true = [["/r/visible.txt"]] :=
  ⟨c8_skip_hidden.1 "/r"
      (DirTree.mk (Forest.cons ".hidden" (DirTree.mk .nil ["file.txt"]) .nil)
        ["visible.txt"]) 100 "/r/visible.txt" (by decide),
    c8_skip_hidden.2⟩

/-- C10: the hidden test is applied to every component of the full joined
path, including the root's own components — if any component of the root
directory's path starts with `.`, enumeration with `skip_hidden = true`
yields nothing at all, whatever the tree contains. -/
theorem c10_hidden_root (dir : String) (t : DirTree) (bs : Nat)
    (hdir : is_hidden dir = true) : batch_os_walk dir t bs true = [] := by
  unfold batch_os_walk
  rw [treeWalkFiles_nil_of_hidden t dir hdir]
  rfl

/-- Witness for C10: a root with hidden component `.cfg` and a tree with two
ordinary visible files enumerates to nothing. -/
theorem c10_hidden_root_witness :
    is_hidden "/home/.cfg/data" = true ∧
    batch_os_walk "/home/.cfg/data" (DirTree.mk .nil ["a.txt", "b.txt"]) 5 true = [] :=
  ⟨by decide, c10_hidden_root "/home/.cfg/data" (DirTree.mk .nil ["a.txt", "b.txt"]) 5
    (by decide)⟩

/-- C2 (code bug): when a file vanishes between enumeration and hashing the
hasher returns an absent digest, but the generation orchestrator prints
unconditionally — the manifest receives the line `None  ./gone.txt` instead
of no line at all (source line 99 has no absent-digest guard). -/
theorem c2_gen_emits_none_line :
    calculate_checksums_multithread (fun _ => FileOutcome.notFound) (fun _ l => l)
      "/r" (DirTree.mk .nil ["gone.txt"]) 5 8192 "./" true =
      .ok ["None  ./gone.txt"] := by
  rfl

/-- C5 counterexample: for a file that exists but cannot be opened
(`PermissionError`, modelled `openError`), the hasher does NOT return a
`NotFound` outcome — the exception propagates to the caller, because only
`FileNotFoundError` is caught. -/
theorem c5_counterexample :
    calculate_file_checksum (fun _ => FileOutcome.openError) "/r/locked.txt" 8192 none =
      .error () := rfl

/-- C5 (amended): if the file does not exist (`FileNotFoundError`) the hasher
returns the path with an absent digest instead of raising; a readable file
yields its digest; but any other open/read failure propagates as an
exception. -/
theorem c5_amended (fs : String → FileOutcome) (p : String) (rs : Nat)
    (pass : Option String) :
    (fs p = .notFound → calculate_file_checksum fs p rs pass = .ok (p, none, pass)) ∧
    (∀ d, fs p = .found d → calculate_file_checksum fs p rs pass = .ok (p, some d, pass)) ∧
    (fs p = .openError → calculate_file_checksum fs p rs pass = .error ()) := by
  refine ⟨fun h => ?_, fun d h => ?_, fun h => ?_⟩ <;> simp [calculate_file_checksum, h]

/-- Witness for C5 (amended), at a filesystem where the file vanished. -/
theorem c5_amended_witness :
    calculate_file_checksum (fun _ => FileOutcome.notFound) "/r/gone.txt" 1024 none =
      .ok ("/r/gone.txt", none, none) :=
  (c5_amended (fun _ => FileOutcome.notFound) "/r/gone.txt" 1024 none).1 rfl

/-- C9: the `results` ledger of a verify run never exceeds the number of
manifest entries (each entry contributes at most one triple), and the ledger
is append-only — every intermediate ledger state of the chunk loop is a
prefix of any ledger it later returns, so the bound holds at every point of
the run. -/
theorem c9_ledger_bound (fs : String → FileOutcome)
    (orders : Nat → List (String × Except Unit (String × Option String × Option String)) →
      List (String × Except Unit (String × Option String × Option String)))
    (hOrd : ∀ i l, (orders i l).Perm l) (checksums : List (String × String))
    (dir : String) (w rs : Nat) (hw : 1 ≤ w) (kg : Bool) :
    (∀ res, verify_checksums_multithread fs orders checksums dir w rs kg = .ok res →
      res.length ≤ checksums.length) ∧
    (∀ chunks i acc res, verifyLoop fs orders dir rs kg chunks i acc = .ok res →
      acc <+: res) := by
  constructor
  · intro res h
    unfold verify_checksums_multithread at h
    have h1 := verifyLoop_ok_length fs orders hOrd dir rs kg _ 0 [] res h
    have h2 : ((batch checksums (w * 4)).map List.length).sum = checksums.length := by
      rw [← List.length_flatten, batch_flatten checksums (w * 4) (by omega)]
    rw [h1, h2]
    simp
  · intro chunks i acc res h
    exact verifyLoop_ok_isPrefixOf fs orders dir rs kg chunks i acc res h

/-- Witness for C9 at a one-entry manifest that verifies cleanly. -/
theorem c9_ledger_bound_witness :
    ([("/r/f1", some "aaa", some "aaa")] : List (String × Option String × Option String)).length ≤
      ([("aaa", "f1")] : List (String × String)).length :=
  (c9_ledger_bound (fun _ => FileOutcome.found "aaa") (fun _ l => l)
    (fun _ l => List.Perm.refl l) [("aaa", "f1")] "/r" 5 8192 (by decide) true).1
    [("/r/f1", some "aaa", some "aaa")] (by rfl)

/-- C1 counterexample: on a checksum mismatch with `keep_going = false` the
run does abort immediately, but NO ledger is handed back to the caller — the
fail-fast `ValueError` is wrapped into a `RuntimeError` by the inner
`except Exception` and propagates, so `return results` is never reached.  At
this concrete two-entry manifest whose second file mismatches, the claimed
ledger (`Except.ok` with fewer results than entries) does not exist: the run
returns the propagated error instead. -/
theorem c1_counterexample :
    verify_checksums_multithread
      (fun p => if p = "/r/f1" then FileOutcome.found "aaa"
        else if p = "/r/f2" then FileOutcome.found "ccc" else FileOutcome.notFound)
      (fun _ l => l) [("aaa", "f1"), ("bbb", "f2")] "/r" 5 8192 false =
      .error (.runtimeError "/r/f2") := rfl

/-- C1 (amended): on mismatch with `keep_going = false` the run aborts
immediately — the error is raised at the mismatching result, before any
further result of the batch is consumed (first conjunct: the remaining
results are irrelevant) and before any later batch is submitted (second
conjunct: the remaining chunks are irrelevant) — but no `VerificationLedger`
is handed back: the function propagates the error and discards the partial
`results` list, so any ledger the caller does receive contains no mismatch at
all (third conjunct). -/
theorem c1_amended :
    (∀ (acc : List (String × Option String × Option String)) (f p : String)
      (c e : Option String)
      (rest : List (String × Except Unit (String × Option String × Option String))),
      e ≠ c →
      processResults false acc ((f, .ok (p, c, e)) :: rest) =
        .error (.runtimeError p)) ∧
    (∀ (fs : String → FileOutcome)
      (orders : Nat → List (String × Except Unit (String × Option String × Option String)) →
        List (String × Except Unit (String × Option String × Option String)))
      (dir : String) (rs : Nat) (chunk : List (String × String))
      (rest : List (List (String × String))) (i : Nat)
      (acc : List (String × Option String × Option String)) (e : RunError),
      processResults false acc (orders i (chunkOutputs fs dir rs chunk)) = .error e →
      verifyLoop fs orders dir rs false (chunk :: rest) i acc = .error e) ∧
    (∀ (fs : String → FileOutcome)
      (orders : Nat → List (String × Except Unit (String × Option String × Option String)) →
        List (String × Except Unit (String × Option String × Option String)))
      (cs : List (String × String)) (dir : String) (w rs : Nat)
      (res : List (String × Option String × Option String)),
      verify_checksums_multithread fs orders cs dir w rs false = .ok res →
      ∀ t ∈ res, t.2.2 = t.2.1) := by
  refine ⟨?_, ?_, ?_⟩
  · intro acc f p c e rest he
    simp [processResults, if_neg he]
  · intro fs orders dir rs chunk rest i acc e h
    simp [verifyLoop, h]
  · intro fs orders cs dir w rs res h t ht
    unfold verify_checksums_multithread at h
    exact verifyLoop_ok_matches fs orders dir rs _ 0 [] res h (by simp) t ht

/-- Witness for C1 (amended), at concrete mismatching inputs. -/
theorem c1_amended_witness :
    processResults false []
        [("f2", .ok ("/r/f2", some "ccc", some "bbb"))] =
      .error (.runtimeError "/r/f2") ∧
    (some "aaa" : Option String) = some "aaa" :=
  ⟨c1_amended.1 [] "f2" "/r/f2" (some "ccc") (some "bbb") [] (by decide),
    c1_amended.2.2 (fun _ => FileOutcome.found "aaa") (fun _ l => l)
      [("aaa", "f1")] "/r" 5 8192 [("/r/f1", some "aaa", some "aaa")] rfl
      ("/r/f1", some "aaa", some "aaa") (by decide)⟩

/-- C3 counterexample: a non-comment line of three whitespace-separated
tokens does NOT make parsing fail — `line.split()[0]` / `[1]` silently take
the first two tokens and the extra token is ignored. -/
theorem c3_counterexample :
    read_checksum_file ["d41d8cd98f00b204e9800998ecf8427e path extra"] =
      .ok [("d41d8cd98f00b204e9800998ecf8427e", "path")] := rfl

/-- C3 (amended): parsing fails (with the uncaught `IndexError`, the spec's
`MalformedLine`) exactly for retained lines with FEWER than two tokens — a
line with two or more tokens parses to its first two tokens (first conjunct)
— and when a retained line has fewer than two tokens the whole verify run
fails with that parse error before any hashing begins: the outcome is the
same for every filesystem (second conjunct). -/
theorem c3_amended :
    (∀ (line t0 t1 : String) (rest : List String),
      pySplit line = t0 :: t1 :: rest → parseLine line = .ok (t0, t1)) ∧
    (∀ (lines : List String) (line : String),
      line ∈ removeComments lines → (pySplit line).length < 2 →
      ∀ (fs : String → FileOutcome)
        (orders : Nat → List (String × Except Unit (String × Option String × Option String)) →
          List (String × Except Unit (String × Option String × Option String)))
        (dir : String) (w rs : Nat) (kg : Bool),
        main_verify fs orders lines dir w rs kg = .error (.parse .malformedLine)) := by
  constructor
  · intro line t0 t1 rest h
    exact parseLine_of_two h
  · intro lines line hmem hshort fs orders dir w rs kg
    have herr : parseLines (removeComments lines) = .error .malformedLine :=
      parseLines_error_of_mem (removeComments lines) hmem
        (parseLine_error_of_short hshort)
    simp [main_verify, read_checksum_file, herr]

/-- Witness for C3 (amended): a three-token line parses to its first two
tokens, and a one-token manifest aborts the whole run before hashing. -/
theorem c3_amended_witness :
    parseLine "a b c" = .ok ("a", "b") ∧
    main_verify (fun _ => FileOutcome.found "zzz") (fun _ l => l)
        ["lonetoken"] "/r" 5 8192 false = .error (.parse .malformedLine) :=
  ⟨c3_amended.1 "a b c" "a" "b" ["c"] (by decide),
    c3_amended.2 ["lonetoken"] "lonetoken" (by decide) (by decide)
      (fun _ => FileOutcome.found "zzz") (fun _ l => l) "/r" 5 8192 false⟩

/-- C4 counterexample: comment handling is NOT insensitive to leading
whitespace or to adjacent comment lines.  In this three-line manifest, the
first line's first non-whitespace character is `#` but it is retained
(`startswith("#")` sees the leading blanks), and the third line — a comment
line adjacent to the removed second one — is skipped over by the
mutate-while-iterating loop and also retained; both are then parsed as data
lines instead of contributing nothing. -/
theorem c4_counterexample :
    read_checksum_file ["  # lead x", "# a b", "# c d"] =
      .ok [("#", "lead"), ("#", "c")] := rfl

/-- C4 (amended): a line is treated as a comment only when its very first
character is `#`, and — because `lines.remove` runs inside the iteration —
the line immediately after a removed comment line escapes examination.  When
no two consecutive lines both start with `#`, the loop removes exactly the
lines starting with `#` (the escaped successors are then non-comments that
would be kept anyway), so exactly those lines contribute no pair. -/
theorem c4_amended (lines : List String) (h : noAdjComments lines = true) :
    removeComments lines = lines.filter (fun l => !pyStartsWith l "#") ∧
    read_checksum_file lines =
      parseLines (lines.filter (fun l => !pyStartsWith l "#")) := by
  have h1 := removeComments_noAdj lines h
  exact ⟨h1, by rw [read_checksum_file, h1]⟩

/-- Witness for C4 (amended): with no adjacent comment lines, exactly the
`#`-initial lines are dropped. -/
theorem c4_amended_witness :
    noAdjComments ["# x y", "aa bb", "# z w"] = true ∧
    removeComments ["# x y", "aa bb", "# z w"] =
      List.filter (fun l => !pyStartsWith l "#") ["# x y", "aa bb", "# z w"] :=
  ⟨by decide, (c4_amended ["# x y", "aa bb", "# z w"] (by decide)).1⟩

/-- C6 (round-trip law): generate a manifest for a directory tree with the
default `./` path prefix, then verify that manifest against the same
unmodified filesystem (`fs` unchanged between the two runs, every enumerated
file readable): generation succeeds, the manifest parses back, verification
re-hashes every listed file, and every comparison in the resulting ledger is
OK — under the manifest format's documented restrictions (names contain no
whitespace; digests are non-empty, whitespace-free and do not start with the
comment marker — true of MD5 hex digests), for any completion orders of both
worker pools and either fail-fast policy. -/
theorem c6_round_trip (fs : String → FileOutcome)
    (genOrders : Nat → List (Except Unit (String × Option String × Option String)) →
      List (Except Unit (String × Option String × Option String)))
    (verOrders : Nat → List (String × Except Unit (String × Option String × Option String)) →
      List (String × Except Unit (String × Option String × Option String)))
    (dir : String) (t : DirTree) (w rs rs2 : Nat) (kg skip : Bool)
    (hw : 1 ≤ w)
    (hOrdG : ∀ i l, (genOrders i l).Perm l)
    (hOrdV : ∀ i l, (verOrders i l).Perm l)
    (hnames : DirTree.namesNoWS t = true)
    (hfs : ∀ p ∈ DirTree.walkFiles skip dir t, ∃ dg, fs p = .found dg ∧
      dg ≠ "" ∧ noWS dg = true ∧ pyStartsWith dg "#" = false) :
    ∃ lines entries results,
      calculate_checksums_multithread fs genOrders dir t w rs "./" skip = .ok lines ∧
      read_checksum_file lines = .ok entries ∧
      verify_checksums_multithread fs verOrders entries dir w rs2 kg = .ok results ∧
      results.length = entries.length ∧
      ∀ tr ∈ results, tr.2.2 = tr.2.1 := by
  have hbat : ∀ b ∈ batch_os_walk dir t (w * 20) skip, ∀ f ∈ b,
      f ∈ DirTree.walkFiles skip dir t := by
    intro b hb f hf
    have hflat : (batch_os_walk dir t (w * 20) skip).flatten =
        DirTree.walkFiles skip dir t := by
      have := batchAccum_flatten (w * 20) (DirTree.walkFiles skip dir t) []
      simpa [batch_os_walk] using this
    rw [← hflat]
    exact List.mem_flatten.mpr ⟨b, hb, hf⟩
  obtain ⟨lines, hlines, hlinesMem⟩ := genLoop_ok fs genOrders hOrdG dir "./" rs
    (DirTree.walkFiles skip dir t) (fun p hp => (hfs p hp).imp (fun dg h => h.1))
    (batch_os_walk dir t (w * 20) skip) hbat 0 []
  have hline : ∀ x ∈ lines, ∃ rel dg, x = dg ++ "  " ++ ("./" ++ rel) ∧
      fs (dir ++ "/" ++ rel) = .found dg ∧ dg ≠ "" ∧ noWS dg = true ∧
      pyStartsWith dg "#" = false ∧ noWS rel = true := by
    intro x hx
    rcases hlinesMem x hx with hx2 | hx2
    · simp at hx2
    · obtain ⟨p, dg, ⟨hpmem, hpfs⟩, hxeq⟩ := hx2
      obtain ⟨rel, hprel, hrelw⟩ := treeWalkFiles_shape t skip dir p hnames hpmem
      obtain ⟨dg', hdg', hdgne, hdgw, hdghash⟩ := hfs p hpmem
      have hdgeq : dg = dg' := by
        rw [hpfs] at hdg'
        injection hdg'
      subst hdgeq
      refine ⟨rel, dg, ?_, ?_, hdgne, hdgw, hdghash, hrelw⟩
      · rw [hxeq, hprel, pyRelUnder_append, String.append_assoc]
      · rw [← hprel]
        exact hpfs
  have hnocomment : ∀ x ∈ lines, pyStartsWith x "#" = false := by
    intro x hx
    obtain ⟨rel, dg, hxeq, _, hdgne, _, hdghash, _⟩ := hline x hx
    rw [hxeq, String.append_assoc, pyStartsWith_hash_append _ hdgne]
    exact hdghash
  have hparse : ∀ line ∈ lines, ∃ pr, parseLine line = .ok pr ∧
      (∃ rel dg, pr = (dg, "./" ++ rel) ∧ fs (dir ++ "/" ++ rel) = .found dg) := by
    intro line hl
    obtain ⟨rel, dg, hxeq, hfsrel, hdgne, hdgw, hdghash, hrelw⟩ := hline line hl
    have hdata : ("./" ++ rel).toList = '.' :: '/' :: rel.toList := by
      show ("./" ++ rel).data = _
      rw [String.data_append]
      rfl
    have hsplit : pySplit line = [dg, "./" ++ rel] := by
      rw [hxeq]
      refine pySplit_digest_path dg ("./" ++ rel) hdgne hdgw
        (ne_empty_of_toList_ne_nil (by rw [hdata]; simp)) ?_
      rw [noWS_append]
      rw [hrelw, show noWS "./" = true from by decide]
      rfl
    exact ⟨(dg, "./" ++ rel), parseLine_of_two hsplit, rel, dg, rfl, hfsrel⟩
  obtain ⟨entries, hentries, hentlen, hentmem⟩ := parseLines_ok_of_all
    (fun _ pr => ∃ rel dg, pr = (dg, "./" ++ rel) ∧ fs (dir ++ "/" ++ rel) = .found dg)
    lines hparse
  have hread : read_checksum_file lines = .ok entries := by
    rw [read_checksum_file, removeComments_of_no_comments lines hnocomment, hentries]
  have hch : ∀ ch ∈ batch entries (w * 4), ∀ pr ∈ ch,
      fs (pyAbsJoin dir pr.2) = .found pr.1 := by
    intro ch hc pr hpr
    have hprent : pr ∈ entries := by
      rw [← batch_flatten entries (w * 4) (by omega)]
      exact List.mem_flatten.mpr ⟨ch, hc, hpr⟩
    obtain ⟨l, _, rel, dg, hpreq, hfsdg⟩ := hentmem pr hprent
    rw [hpreq]
    show fs (pyAbsJoin dir ("./" ++ rel)) = .found dg
    rw [pyAbsJoin_dotslash]
    exact hfsdg
  obtain ⟨results, hres, hreslen, hresmem⟩ := verifyLoop_all_ok fs verOrders hOrdV
    dir rs2 kg (batch entries (w * 4)) 0 [] hch
  refine ⟨lines, entries, results, ?_, hread, ?_, ?_, ?_⟩
  · unfold calculate_checksums_multithread
    exact hlines
  · unfold verify_checksums_multithread
    exact hres
  · rw [hreslen]
    have h2 : ((batch entries (w * 4)).map List.length).sum = entries.length := by
      rw [← List.length_flatten, batch_flatten entries (w * 4) (by omega)]
    rw [h2]
    simp
  · intro tr htr
    rcases hresmem tr htr with h | h
    · simp at h
    · exact h

/-- Witness for C6 at a concrete tree (`/r` with `v.txt` and `sub/x.txt`) and
a filesystem assigning digest `d<path>` to every path, with identity
completion orders. -/
theorem c6_round_trip_witness :
    ∃ lines entries results,
      calculate_checksums_multithread (fun p => FileOutcome.found ("d" ++ p))
        (fun _ l => l) "/r"
        (DirTree.mk (Forest.cons "sub" (DirTree.mk .nil ["x.txt"]) .nil) ["v.txt"])
        1 0 "./" true = .ok lines ∧
      read_checksum_file lines = .ok entries ∧
      verify_checksums_multithread (fun p => FileOutcome.found ("d" ++ p))
        (fun _ l => l) entries "/r" 1 0 false = .ok results ∧
      results.length = entries.length ∧
      ∀ tr ∈ results, tr.2.2 = tr.2.1 :=
  c6_round_trip (fun p => FileOutcome.found ("d" ++ p)) (fun _ l => l) (fun _ l => l)
    "/r" (DirTree.mk (Forest.cons "sub" (DirTree.mk .nil ["x.txt"]) .nil) ["v.txt"])
    1 0 0 false true (by decide) (fun _ l => List.Perm.refl l) (fun _ l => List.Perm.refl l)
    (by decide)
    (by
      intro p hp
      refine ⟨"d" ++ p, rfl, ?_, ?_, ?_⟩ <;> revert hp <;> revert p <;> decide)

end MultiMd5
